import Mathlib

/-!
Shallow embedding of `src/validator.py` (python-cron-validator).

Strings are modelled as `List Char`.  Python's NaN sentinel returned by
`safe_parse_int` is modelled by `Option Nat`: `none` plays the role of NaN,
and every comparison against `none` is `false`, exactly as every comparison
against NaN is `False` in Python.  The numeric values that reach a
comparison in the source are either small (bounds are at most 59) or
compared against small bounds, so modelling the parsed float by the exact
natural number is result-faithful: float rounding can only merge huge
values, and a huge value fails every bound check on both sides.

Regex character classes `\d`, `[a-z]`, `[a-zA-Z]` are modelled over ASCII
(`Char.isDigit`, `Char.isAlpha`, an explicit lowercase test), and Python's
`str.lower`/`str.strip`/`str.split` are modelled by their ASCII behaviour;
none of the properties below depends on non-ASCII letter folding.
-/

namespace CronValidator

/-- Decimal value of a digit string (leading zeros permitted, `05` ↦ 5). -/
def digitsToNat (s : List Char) : Nat :=
  s.foldl (fun a c => a * 10 + (c.toNat - '0'.toNat)) 0

/-- Embedding of `safe_parse_int`: `re.match(r"^\d+$", value)` succeeds iff the
string is a nonempty run of digits, or such a run followed by a single
trailing newline (Python's `$` also matches just before a final newline,
and `float` strips that whitespace).  On success the decimal value is
returned; otherwise `none` (the NaN sentinel).  `parseCore` is the
portion of the string the regex engine actually tests: the whole string,
less a single trailing newline when one is present. -/
def parseCore (value : List Char) : List Char :=
  match value.getLast? with
  | some c => if c = '\n' then value.dropLast else value
  | none => value

/-- See the doc comment above: the regex match of `safe_parse_int`. -/
def safe_parse_int (value : List Char) : Option Nat :=
  if (parseCore value).isEmpty then none
  else if (parseCore value).all Char.isDigit then some (digitsToNat (parseCore value))
  else none

/-- Embedding of `is_wildcard`. -/
def is_wildcard (value : List Char) : Bool :=
  value = ['*']

/-- Embedding of `is_question_mark`. -/
def is_question_mark (value : List Char) : Bool :=
  value = ['?']

/-- Embedding of `is_in_range` applied to a parsed value: comparisons against
the NaN sentinel (`none`) are false. -/
def is_in_range (value : Option Nat) (start stop : Nat) : Bool :=
  match value with
  | some v => decide (start ≤ v) && decide (v ≤ stop)
  | none => false

/-- Python `<=` on possibly-NaN parse results: false whenever a side is NaN. -/
def optLe : Option Nat → Option Nat → Bool
  | some a, some b => decide (a ≤ b)
  | _, _ => false

/-- Splitting on a separator predicate, with Python `str.split(sep)`
semantics: the empty string yields `[[]]`, adjacent separators yield empty
pieces, and a trailing separator yields a trailing empty piece. -/
def splitOnPred (p : Char → Bool) : List Char → List (List Char)
  | [] => [[]]
  | c :: rest =>
    if p c then [] :: splitOnPred p rest
    else
      match splitOnPred p rest with
      | [] => [[c]]
      | q :: qs => (c :: q) :: qs

/-- Python `value.split(sep)` for a one-character separator. -/
def splitOnChar (sep : Char) (s : List Char) : List (List Char) :=
  splitOnPred (fun c => c = sep) s

/-- Embedding of `is_valid_range`. -/
def is_valid_range (value : List Char) (start stop : Nat) : Bool :=
  match splitOnChar '-' value with
  | [_] => is_wildcard value || is_in_range (safe_parse_int value) start stop
  | [l, r] =>
    optLe (safe_parse_int l) (safe_parse_int r) &&
    is_in_range (safe_parse_int l) start stop &&
    is_in_range (safe_parse_int r) start stop
  | _ => false

/-- Embedding of `is_valid_step`: an absent step is valid; a present step is
valid iff it has no non-digit character and parses to a value above zero. -/
def is_valid_step : Option (List Char) → Bool
  | none => true
  | some value =>
    value.all Char.isDigit &&
    (match safe_parse_int value with
     | some n => decide (0 < n)
     | none => false)

/-- The character class `[\d,/*-]` of `validate_for_range`. -/
def allowedFieldChar (c : Char) : Bool :=
  c.isDigit || c = ',' || c = '/' || c = '*' || c = '-'

/-- Python `str.strip()` (whitespace on both ends). -/
def pyStrip (s : List Char) : List Char :=
  ((s.dropWhile Char.isWhitespace).reverse.dropWhile Char.isWhitespace).reverse

/-- Embedding of `validate_for_range`: reject any character outside
`[\d,/*-]`, split on commas, and require every condition to have no
trailing slash, at most one slash, a valid range part and a valid step. -/
def validate_for_range (value : List Char) (start stop : Nat) : Bool :=
  if value.any (fun c => !allowedFieldChar c) then false
  else
    (splitOnChar ',' value).all fun condition =>
      if (pyStrip condition).getLast? = some '/' then false
      else
        match splitOnChar '/' condition with
        | [left] => is_valid_range left start stop && is_valid_step none
        | [left, right] => is_valid_range left start stop && is_valid_step (some right)
        | _ => false

/-- Embedding of `has_valid_seconds`. -/
def has_valid_seconds (seconds : List Char) : Bool :=
  validate_for_range seconds 0 59

/-- Embedding of `has_valid_minutes`. -/
def has_valid_minutes (minutes : List Char) : Bool :=
  validate_for_range minutes 0 59

/-- Embedding of `has_valid_hours`. -/
def has_valid_hours (hours : List Char) : Bool :=
  validate_for_range hours 0 23

/-- Embedding of `has_valid_days`. -/
def has_valid_days (days : List Char) (allow_blank_day : Bool) : Bool :=
  (allow_blank_day && is_question_mark days) || validate_for_range days 1 31

/-- The `month_alias` table. -/
def month_alias : List (List Char × List Char) :=
  [("jan".data, "1".data), ("feb".data, "2".data), ("mar".data, "3".data),
   ("apr".data, "4".data), ("may".data, "5".data), ("jun".data, "6".data),
   ("jul".data, "7".data), ("aug".data, "8".data), ("sep".data, "9".data),
   ("oct".data, "10".data), ("nov".data, "11".data), ("dec".data, "12".data)]

/-- The `weekdays_alias` table. -/
def weekdays_alias : List (List Char × List Char) :=
  [("sun".data, "0".data), ("mon".data, "1".data), ("tue".data, "2".data),
   ("wed".data, "3".data), ("thu".data, "4".data), ("fri".data, "5".data),
   ("sat".data, "6".data)]

/-- The regex class `[a-z]` (the input of the alias substitution is already
lowercase-folded when it is consulted). -/
def isLowerAlpha (c : Char) : Bool :=
  decide ('a' ≤ c) && decide (c ≤ 'z')

/-- The `replace_alias` callbacks: table value if present, else the matched
text unchanged. -/
def aliasLookup (table : List (List Char × List Char)) (key : List Char) : List Char :=
  match table.lookup key with
  | some v => v
  | none => key

/-- Embedding of `re.sub(r"[a-z]{3}", replace_alias, s)`: scan left to right;
whenever the next three characters are lowercase letters, replace that
window through the table and continue after it, else emit one character
and continue.  (Leftmost non-overlapping matching of a three-letter
pattern — a six-letter run is processed as two windows.) -/
def subAlias3 (table : List (List Char × List Char)) : List Char → List Char
  | a :: b :: c :: rest =>
    if isLowerAlpha a && isLowerAlpha b && isLowerAlpha c then
      aliasLookup table [a, b, c] ++ subAlias3 table rest
    else
      a :: subAlias3 table (b :: c :: rest)
  | s => s

/-- Embedding of `re.search(r"\/[a-zA-Z]", s) is not None`. -/
def hasSlashAlpha : List Char → Bool
  | a :: b :: rest => (a = '/' && b.isAlpha) || hasSlashAlpha (b :: rest)
  | _ => false

/-- Embedding of `has_valid_months`. -/
def has_valid_months (months : List Char) («alias» : Bool) : Bool :=
  if hasSlashAlpha months then false
  else if «alias» then
    validate_for_range (subAlias3 month_alias (months.map Char.toLower)) 1 12
  else
    validate_for_range months 1 12

/-- The validation options dictionary, with the library's defaults. -/
structure Options where
  «alias» : Bool := false
  seconds : Bool := false
  allowBlankDay : Bool := false
  allowSevenAsSunday : Bool := false
  allowNthWeekdayOfMonth : Bool := false
deriving DecidableEq

/-- The alias-resolution stage of `has_valid_weekdays`: lowercase fold and
substitute through the weekday table when `alias` is set, else pass the
field through unchanged. -/
def resolve_weekdays (weekdays : List Char) («alias» : Bool) : List Char :=
  if «alias» then subAlias3 weekdays_alias (weekdays.map Char.toLower) else weekdays

/-- Embedding of `has_valid_weekdays`. -/
def has_valid_weekdays (weekdays : List Char) (options : Options) : Bool :=
  if options.allowBlankDay && is_question_mark weekdays then true
  else if !options.allowBlankDay && is_question_mark weekdays then false
  else if hasSlashAlpha weekdays then false
  else
    let remapped := resolve_weekdays weekdays options.alias
    let maxWeekdayNum : Nat := if options.allowSevenAsSunday then 7 else 6
    let splitByHash := splitOnChar '#' remapped
    if options.allowNthWeekdayOfMonth && decide (2 ≤ splitByHash.length) then
      if decide (2 < splitByHash.length) then false
      else
        match splitByHash with
        | wd :: occurrence :: _ =>
          is_in_range (safe_parse_int occurrence) 1 5 &&
          is_in_range (safe_parse_int wd) 0 maxWeekdayNum
        | _ => false
    else
      validate_for_range remapped 0 maxWeekdayNum

/-- Embedding of `has_compatible_day_format`. -/
def has_compatible_day_format (days weekdays : List Char) (allow_blank_day : Bool) : Bool :=
  !(allow_blank_day && is_question_mark days && is_question_mark weekdays)

/-- Embedding of `split_cron`: Python `cron.strip().split()` — split on runs
of whitespace, discarding empty pieces. -/
def split_cron (cron : List Char) : List (List Char) :=
  (splitOnPred Char.isWhitespace (pyStrip cron)).filter (fun piece => !piece.isEmpty)

/-- Embedding of `is_valid_cron`: length guard, optional seconds field, then
the conjunction of every per-field check and the cross-field rule. -/
def is_valid_cron (cron : List Char) (options : Options) : Bool :=
  let splits := split_cron cron
  if splits.length > (if options.seconds then 6 else 5) ∨ splits.length < 5 then
    false
  else
    match splits with
    | [sec, minutes, hours, days, months, weekdays] =>
      has_valid_seconds sec &&
      has_valid_minutes minutes &&
      has_valid_hours hours &&
      has_valid_days days options.allowBlankDay &&
      has_valid_months months options.alias &&
      has_valid_weekdays weekdays options &&
      has_compatible_day_format days weekdays options.allowBlankDay
    | [minutes, hours, days, months, weekdays] =>
      has_valid_minutes minutes &&
      has_valid_hours hours &&
      has_valid_days days options.allowBlankDay &&
      has_valid_months months options.alias &&
      has_valid_weekdays weekdays options &&
      has_compatible_day_format days weekdays options.allowBlankDay
    | _ => false

/-! ## Helper lemmas about the embedded operations -/

theorem splitOnPred_ne_nil (p : Char → Bool) (s : List Char) : splitOnPred p s ≠ [] := by
  induction s with
  | nil => simp [splitOnPred]
  | cons c rest ih =>
    simp only [splitOnPred]
    split
    · simp
    · split
      · simp
      · simp

theorem splitOnPred_eq_self {p : Char → Bool} {s : List Char}
    (h : ∀ c ∈ s, p c = false) : splitOnPred p s = [s] := by
  induction s with
  | nil => rfl
  | cons c rest ih =>
    have hc : p c = false := h c (List.mem_cons_self c rest)
    have ih' := ih (fun d hd => h d (List.mem_cons_of_mem c hd))
    simp only [splitOnPred, hc]
    rw [ih']
    simp

theorem mem_splitOnPred (p : Char → Bool) {c : Char} :
    ∀ {s : List Char}, c ∈ s → p c = false → ∃ part ∈ splitOnPred p s, c ∈ part := by
  intro s
  induction s with
  | nil => intro h; cases h
  | cons a rest ih =>
    intro hc hp
    simp only [splitOnPred]
    rcases List.mem_cons.mp hc with rfl | hmem
    · rw [hp]
      simp only [Bool.false_eq_true, if_false]
      cases hrest : splitOnPred p rest with
      | nil => exact ⟨[c], by simp⟩
      | cons q qs => exact ⟨c :: q, by simp⟩
    · by_cases ha : p a = true
      · rw [ha]
        obtain ⟨part, hp1, hp2⟩ := ih hmem hp
        exact ⟨part, by simp [hp1], hp2⟩
      · rw [Bool.not_eq_true] at ha
        rw [ha]
        simp only [Bool.false_eq_true, if_false]
        obtain ⟨part, hp1, hp2⟩ := ih hmem hp
        cases hrest : splitOnPred p rest with
        | nil => exact absurd hrest (splitOnPred_ne_nil p rest)
        | cons q qs =>
          rw [hrest] at hp1
          rcases List.mem_cons.mp hp1 with rfl | hq
          · exact ⟨a :: part, by simp, List.mem_cons_of_mem a hp2⟩
          · exact ⟨part, by simp [hq], hp2⟩

theorem mem_dropLast_of_ne_getLast? {c lc : Char} :
    ∀ {s : List Char}, c ∈ s → s.getLast? = some lc → c ≠ lc → c ∈ s.dropLast := by
  intro s
  induction s with
  | nil => intro h; cases h
  | cons a rest ih =>
    intro hc hlast hne
    cases rest with
    | nil =>
      simp only [List.getLast?_singleton, Option.some.injEq] at hlast
      rcases List.mem_singleton.mp hc with rfl
      exact absurd hlast hne
    | cons b t =>
      rw [List.getLast?_cons_cons] at hlast
      rcases List.mem_cons.mp hc with rfl | hmem
      · simp [List.dropLast_cons₂]
      · have := ih hmem hlast hne
        simp only [List.dropLast_cons₂]
        exact List.mem_cons_of_mem a this

theorem getLast?_mem {l : List Char} {a : Char} (h : l.getLast? = some a) : a ∈ l := by
  cases l with
  | nil => simp at h
  | cons x t =>
    have hne : x :: t ≠ [] := by simp
    rw [List.getLast?_eq_getLast _ hne, Option.some.injEq] at h
    rw [← h]
    exact List.getLast_mem hne

theorem digit_ne {c d : Char} (h : c.isDigit = true) (hd : d.isDigit = false) : c ≠ d := by
  intro e; rw [e, hd] at h; cases h

theorem safe_parse_int_eq_none {c : Char} {s : List Char}
    (hc : c ∈ s) (hd : c.isDigit = false) (hn : c ≠ '\n') :
    safe_parse_int s = none := by
  have hcore : c ∈ parseCore s := by
    cases hlast : s.getLast? with
    | none =>
      have hpc : parseCore s = s := by unfold parseCore; rw [hlast]
      rw [hpc]; exact hc
    | some lc =>
      by_cases hln : lc = '\n'
      · subst hln
        have hpc : parseCore s = s.dropLast := by unfold parseCore; rw [hlast]; simp
        rw [hpc]
        exact mem_dropLast_of_ne_getLast? hc hlast hn
      · have hpc : parseCore s = s := by unfold parseCore; rw [hlast]; simp [hln]
        rw [hpc]; exact hc
  have hall : (parseCore s).all Char.isDigit = false := by
    cases hA : (parseCore s).all Char.isDigit
    · rfl
    · exact absurd (List.all_eq_true.mp hA c hcore) (by simp [hd])
  unfold safe_parse_int
  rw [hall]
  simp

theorem validate_for_range_eq_false_of_mem {c : Char} {s : List Char} {a b : Nat}
    (hc : c ∈ s) (hbad : allowedFieldChar c = false) :
    validate_for_range s a b = false := by
  unfold validate_for_range
  have hany : s.any (fun d => !allowedFieldChar d) = true :=
    List.any_eq_true.mpr ⟨c, hc, by simp [hbad]⟩
  rw [hany]
  simp

theorem mem_subAlias3 (tbl : List (List Char × List Char)) {c : Char}
    (hlow : isLowerAlpha c = false) :
    ∀ s, c ∈ s → c ∈ subAlias3 tbl s
  | [], h => by cases h
  | [a], h => by simpa [subAlias3] using h
  | [a, b], h => by simpa [subAlias3] using h
  | a :: b :: d :: rest, h => by
    simp only [subAlias3]
    split
    · rename_i hab
      simp only [Bool.and_eq_true] at hab
      obtain ⟨⟨ha, hb⟩, hd⟩ := hab
      have hne : ∀ x, isLowerAlpha x = true → c ≠ x := by
        intro x hx e; rw [e, hx] at hlow; cases hlow
      have hcr : c ∈ rest := by
        rcases List.mem_cons.mp h with h1 | h'
        · exact absurd h1 (hne a ha)
        rcases List.mem_cons.mp h' with h2 | h''
        · exact absurd h2 (hne b hb)
        rcases List.mem_cons.mp h'' with h3 | h'''
        · exact absurd h3 (hne d hd)
        · exact h'''
      exact List.mem_append_right _ (mem_subAlias3 tbl hlow rest hcr)
    · rcases List.mem_cons.mp h with rfl | h'
      · exact List.mem_cons_self _ _
      · exact List.mem_cons_of_mem _ (mem_subAlias3 tbl hlow (b :: d :: rest) h')

theorem mem_of_hasSlashAlpha : ∀ {s : List Char}, hasSlashAlpha s = true → '/' ∈ s
  | [], h => by simp [hasSlashAlpha] at h
  | [a], h => by simp [hasSlashAlpha] at h
  | a :: b :: rest, h => by
    simp only [hasSlashAlpha, Bool.or_eq_true, Bool.and_eq_true] at h
    rcases h with ⟨ha, _⟩ | h
    · rw [decide_eq_true_eq] at ha
      rw [ha]
      exact List.mem_cons_self _ _
    · exact List.mem_cons_of_mem _ (mem_of_hasSlashAlpha h)

theorem mem_of_lookup_eq_some {k v : List Char} :
    ∀ {tbl : List (List Char × List Char)}, tbl.lookup k = some v → (k, v) ∈ tbl
  | [], h => by simp [List.lookup] at h
  | (a, w) :: rest, h => by
    simp only [List.lookup] at h
    cases hbeq : (k == a) with
    | true =>
      rw [hbeq] at h
      simp only [Option.some.injEq] at h
      have : k = a := by exact eq_of_beq hbeq
      subst this; subst h
      exact List.mem_cons_self _ _
    | false =>
      rw [hbeq] at h
      exact List.mem_cons_of_mem _ (mem_of_lookup_eq_some h)

theorem dropWhile_eq_self_of {p : Char → Bool} :
    ∀ {l : List Char}, (∀ c ∈ l, p c = false) → l.dropWhile p = l
  | [], _ => rfl
  | a :: t, h => by
    have ha := h a (List.mem_cons_self a t)
    simp [List.dropWhile_cons, ha]

theorem pyStrip_eq_self {s : List Char} (h : ∀ c ∈ s, c.isWhitespace = false) :
    pyStrip s = s := by
  unfold pyStrip
  rw [dropWhile_eq_self_of h]
  rw [dropWhile_eq_self_of (fun c hc => h c (List.mem_reverse.mp hc))]
  exact List.reverse_reverse s

theorem ws_false_of_digit {c : Char} (h : c.isDigit = true) : c.isWhitespace = false := by
  cases hw : c.isWhitespace
  · rfl
  · exfalso
    have := hw
    simp only [Char.isWhitespace] at this
    rcases Bool.or_eq_true_iff.mp this with h4 | h4
    rcases Bool.or_eq_true_iff.mp h4 with h3 | h3
    rcases Bool.or_eq_true_iff.mp h3 with h2 | h2
    · rw [decide_eq_true_eq] at h2; subst h2; simp [Char.isDigit] at h
    · rw [decide_eq_true_eq] at h2; subst h2; simp [Char.isDigit] at h
    · rw [decide_eq_true_eq] at h3; subst h3; simp [Char.isDigit] at h
    · rw [decide_eq_true_eq] at h4; subst h4; simp [Char.isDigit] at h

/-! ## Claim theorems -/

/-- C1 (counterexample): with `seconds` enabled, a five-field expression is
accepted by `is_valid_cron`, contradicting the claim that any field count
other than six is invalid in that configuration. -/
theorem claim1_counterexample :
    is_valid_cron ("* * * * *".data) ⟨false, true, false, false, false⟩ = true ∧
    (split_cron ("* * * * *".data)).length = 5 := by
  constructor <;> decide

/-- C1 (amended): `is_valid_cron` returns false unless the whitespace-split
field count `n` satisfies `5 ≤ n ≤ 5` when `seconds` is disabled and
`5 ≤ n ≤ 6` when it is enabled — i.e. enabling `seconds` allows a sixth
field but does not require it. -/
theorem claim1_field_count_bounds (cron : List Char) (opts : Options)
    (h : is_valid_cron cron opts = true) :
    5 ≤ (split_cron cron).length ∧
      (split_cron cron).length ≤ (if opts.seconds then 6 else 5) := by
  by_cases hg : (split_cron cron).length > (if opts.seconds then 6 else 5) ∨
      (split_cron cron).length < 5
  · exfalso
    have hf : is_valid_cron cron opts = false := by
      simp only [is_valid_cron]
      rw [if_pos hg]
    rw [hf] at h
    cases h
  · push_neg at hg
    exact ⟨hg.2, hg.1⟩

/-- Witness for C1's amended theorem at the six-field expression
`"* * * * * *"` with `seconds` enabled. -/
theorem claim1_field_count_bounds_witness :
    5 ≤ (split_cron ("* * * * * *".data)).length ∧
      (split_cron ("* * * * * *".data)).length ≤ 6 := by
  have h := claim1_field_count_bounds ("* * * * * *".data)
    ⟨false, true, false, false, false⟩ (by decide)
  exact ⟨h.1, h.2⟩

/-- C2 (counterexample): a month field made of two adjacent three-letter
month names is resolved (both windows are substituted) and the field is
valid, contradicting the claim that only maximal runs of exactly three
alphabetic characters are substituted. -/
theorem claim2_counterexample :
    has_valid_months ("janfeb".data) true = true ∧
    is_valid_cron ("* * * janfeb *".data) ⟨true, false, false, false, false⟩ = true := by
  constructor <;> decide

/-- C2 (amended): alias resolution substitutes a table value for each
leftmost non-overlapping window of three consecutive lowercase alphabetic
characters, scanning left to right — not only for maximal runs of exactly
three.  In particular the concatenation of two table keys resolves to the
concatenation of their values, for the month table (through
`has_valid_months`) and for the weekday table (through
`resolve_weekdays`). -/
theorem claim2_adjacent_aliases_resolve :
    (∀ m1 v1 m2 v2, month_alias.lookup m1 = some v1 → month_alias.lookup m2 = some v2 →
       has_valid_months (m1 ++ m2) true = validate_for_range (v1 ++ v2) 1 12) ∧
    (∀ w1 u1 w2 u2, weekdays_alias.lookup w1 = some u1 → weekdays_alias.lookup w2 = some u2 →
       resolve_weekdays (w1 ++ w2) true = u1 ++ u2) := by
  constructor
  · intro m1 v1 m2 v2 h1 h2
    have key : ∀ p ∈ month_alias, ∀ q ∈ month_alias,
        has_valid_months (p.1 ++ q.1) true = validate_for_range (p.2 ++ q.2) 1 12 := by
      decide
    exact key (m1, v1) (mem_of_lookup_eq_some h1) (m2, v2) (mem_of_lookup_eq_some h2)
  · intro w1 u1 w2 u2 h1 h2
    have key : ∀ p ∈ weekdays_alias, ∀ q ∈ weekdays_alias,
        resolve_weekdays (p.1 ++ q.1) true = p.2 ++ q.2 := by
      decide
    exact key (w1, u1) (mem_of_lookup_eq_some h1) (w2, u2) (mem_of_lookup_eq_some h2)

/-- Witness for C2's amended theorem at the adjacent month aliases
`"jan"` and `"feb"`. -/
theorem claim2_adjacent_aliases_resolve_witness :
    has_valid_months ("jan".data ++ "feb".data) true =
      validate_for_range ("1".data ++ "2".data) 1 12 :=
  claim2_adjacent_aliases_resolve.1 _ _ _ _ (by decide) (by decide)

/-- C3: the validator is a total boolean function — on every input it
returns either `true` or `false` — and structurally invalid inputs (the
empty string, a wrong field count, a non-ASCII field, out-of-range and
ambiguous fields) map to the `false` result. -/
theorem claim3_total_false_channel :
    (∀ cron opts, is_valid_cron cron opts = true ∨ is_valid_cron cron opts = false) ∧
    is_valid_cron [] ⟨false, false, false, false, false⟩ = false ∧
    is_valid_cron ("not a cron".data) ⟨false, false, false, false, false⟩ = false ∧
    is_valid_cron ("* * * * ★".data) ⟨false, false, false, false, false⟩ = false ∧
    is_valid_cron ("1-10-20 60 24 0 8".data) ⟨false, false, false, false, false⟩ = false := by
  refine ⟨fun cron opts => ?_, by decide, by decide, by decide, by decide⟩
  cases h : is_valid_cron cron opts
  · exact Or.inr rfl
  · exact Or.inl rfl

/-- C6: an absent step is valid, and a present step is valid exactly when it
consists only of digits and parses to a value strictly greater than
zero. -/
theorem claim6_step_validity :
    is_valid_step none = true ∧
    (∀ s : List Char, is_valid_step (some s) = true ↔
      (s.all Char.isDigit = true ∧ ∃ n, safe_parse_int s = some n ∧ 0 < n)) := by
  refine ⟨rfl, fun s => ?_⟩
  simp only [is_valid_step, Bool.and_eq_true]
  cases hp : safe_parse_int s with
  | none => simp
  | some k => simp [decide_eq_true_eq]

/-- C9: the scalar `7` in the day-of-week field is valid exactly when
`allowSevenAsSunday` is enabled, whatever the other options are; in
particular the expression `* * * * 7` is rejected under default options
and accepted with the flag. -/
theorem claim9_seven_as_sunday :
    (∀ opts : Options, has_valid_weekdays ['7'] opts = opts.allowSevenAsSunday) ∧
    is_valid_cron ("* * * * 7".data) ⟨false, false, false, false, false⟩ = false ∧
    is_valid_cron ("* * * * 7".data) ⟨false, false, false, true, false⟩ = true := by
  refine ⟨fun opts => ?_, by decide, by decide⟩
  obtain ⟨al, se, bl, sv, nt⟩ := opts
  cases al <;> cases se <;> cases bl <;> cases sv <;> cases nt <;> decide

/-- C10: with `allowNthWeekdayOfMonth` disabled, every day-of-week field
containing the character `#` is rejected, because the hash branch is
skipped and `#` falls outside the grammar's character class. -/
theorem claim10_hash_needs_flag (w : List Char) (opts : Options)
    (hn : opts.allowNthWeekdayOfMonth = false) (hw : '#' ∈ w) :
    has_valid_weekdays w opts = false := by
  have hq : is_question_mark w = false := by
    cases hqm : is_question_mark w
    · rfl
    · exfalso
      have hwq : w = ['?'] := by simpa [is_question_mark] using hqm
      rw [hwq] at hw
      exact absurd (List.mem_singleton.mp hw) (by decide)
  by_cases hsl : hasSlashAlpha w = true
  · simp [has_valid_weekdays, hq, hsl]
  · have hsl' : hasSlashAlpha w = false := by
      revert hsl; cases hasSlashAlpha w <;> simp
    have hmem : '#' ∈ resolve_weekdays w opts.alias := by
      unfold resolve_weekdays
      split
      · exact mem_subAlias3 _ (by decide) _ (List.mem_map.mpr ⟨'#', hw, by decide⟩)
      · exact hw
    have hval : validate_for_range (resolve_weekdays w opts.alias) 0
        (if opts.allowSevenAsSunday then 7 else 6) = false :=
      validate_for_range_eq_false_of_mem hmem (by decide)
    simp only [has_valid_weekdays, hq, hsl', hn, Bool.and_false, Bool.false_and,
      Bool.false_eq_true, if_false]
    simpa using hval

/-- Witness for C10 at the well-formed hash field `1#2` under default
options. -/
theorem claim10_hash_needs_flag_witness :
    has_valid_weekdays ("1#2".data) ⟨false, false, false, false, false⟩ = false :=
  claim10_hash_needs_flag _ _ rfl (by decide)

/-- C4: a bare-integer field (a nonempty token of decimal digits, leading
zeros permitted) passes `validate_for_range` exactly when its decimal
value lies within the closed bounds. -/
theorem claim4_bare_integer (mn mx : Nat) (s : List Char)
    (hne : s ≠ []) (hd : s.all Char.isDigit = true) :
    validate_for_range s mn mx = true ↔ (mn ≤ digitsToNat s ∧ digitsToNat s ≤ mx) := by
  have hdig : ∀ c ∈ s, c.isDigit = true := fun c hc => List.all_eq_true.mp hd c hc
  have hany : s.any (fun d => !allowedFieldChar d) = false := by
    cases hA : s.any (fun d => !allowedFieldChar d)
    · rfl
    · obtain ⟨c, hc, hbc⟩ := List.any_eq_true.mp hA
      exfalso
      have hal : allowedFieldChar c = true := by
        unfold allowedFieldChar; rw [hdig c hc]; simp
      simp [hal] at hbc
  have hsplitc : splitOnChar ',' s = [s] :=
    splitOnPred_eq_self (fun c hc => decide_eq_false (digit_ne (hdig c hc) (by decide)))
  have hstrip : pyStrip s = s := pyStrip_eq_self (fun c hc => ws_false_of_digit (hdig c hc))
  have hlastne : ¬ ((pyStrip s).getLast? = some '/') := by
    rw [hstrip]
    intro hsome
    exact (digit_ne (hdig _ (getLast?_mem hsome)) (by decide)) rfl
  have hsplits : splitOnChar '/' s = [s] :=
    splitOnPred_eq_self (fun c hc => decide_eq_false (digit_ne (hdig c hc) (by decide)))
  have hsplith : splitOnChar '-' s = [s] :=
    splitOnPred_eq_self (fun c hc => decide_eq_false (digit_ne (hdig c hc) (by decide)))
  have hwild : is_wildcard s = false := by
    unfold is_wildcard
    apply decide_eq_false
    intro he
    exact absurd (hdig '*' (by rw [he]; exact List.mem_singleton_self '*')) (by decide)
  have hparse : safe_parse_int s = some (digitsToNat s) := by
    have hpc : parseCore s = s := by
      unfold parseCore
      cases hlast : s.getLast? with
      | none => rfl
      | some lc =>
        have hlc : lc ≠ '\n' := digit_ne (hdig lc (getLast?_mem hlast)) (by decide)
        simp [hlc]
    have hie : s.isEmpty = false := by
      cases s
      · exact absurd rfl hne
      · rfl
    unfold safe_parse_int
    rw [hpc, hie, hd]
    simp
  simp only [validate_for_range, hany, Bool.false_eq_true, if_false, hsplitc,
    List.all_cons, List.all_nil, Bool.and_true, hlastne, if_neg, hsplits,
    is_valid_range, hsplith, hwild, is_valid_step, Bool.false_or, hparse,
    is_in_range, Bool.and_eq_true, decide_eq_true_eq]

/-- Witness for C4 at the leading-zero token `05` against the minutes
bounds. -/
theorem claim4_bare_integer_witness :
    validate_for_range ("05".data) 0 59 = true ∧ digitsToNat ("05".data) = 5 :=
  ⟨(claim4_bare_integer 0 59 ("05".data) (by decide) (by decide)).mpr (by decide),
   by decide⟩

/-- C5: a range expression with exactly one hyphen is valid exactly when
both sides parse to numbers within the bounds and the left side is at most
the right side; more than one hyphen is rejected; and a wildcard on either
side of a hyphenated range is rejected. -/
theorem claim5_hyphen_range (start stop : Nat) :
    (∀ v l r, splitOnChar '-' v = [l, r] →
       (is_valid_range v start stop = true ↔
         ∃ a b, safe_parse_int l = some a ∧ safe_parse_int r = some b ∧
           a ≤ b ∧ start ≤ a ∧ a ≤ stop ∧ start ≤ b ∧ b ≤ stop)) ∧
    (∀ v, 2 < (splitOnChar '-' v).length → is_valid_range v start stop = false) ∧
    (∀ v l r, splitOnChar '-' v = [l, r] →
       is_wildcard l = true ∨ is_wildcard r = true →
       is_valid_range v start stop = false) := by
  have main : ∀ v l r, splitOnChar '-' v = [l, r] →
      (is_valid_range v start stop = true ↔
        ∃ a b, safe_parse_int l = some a ∧ safe_parse_int r = some b ∧
          a ≤ b ∧ start ≤ a ∧ a ≤ stop ∧ start ≤ b ∧ b ≤ stop) := by
    intro v l r hsplit
    simp only [is_valid_range, hsplit]
    cases hl : safe_parse_int l with
    | none => simp [optLe, is_in_range]
    | some a =>
      cases hr : safe_parse_int r with
      | none => simp [optLe, is_in_range]
      | some b =>
        simp only [optLe, is_in_range, Bool.and_eq_true, decide_eq_true_eq,
          Option.some.injEq]
        constructor
        · rintro ⟨⟨hab, hsa, has⟩, hsb, hbs⟩
          exact ⟨a, b, rfl, rfl, hab, hsa, has, hsb, hbs⟩
        · rintro ⟨a', b', ha', hb', hab, hsa, has, hsb, hbs⟩
          subst ha'; subst hb'
          exact ⟨⟨hab, hsa, has⟩, hsb, hbs⟩
  refine ⟨main, ?_, ?_⟩
  · intro v h2
    rcases hres : splitOnChar '-' v with _ | ⟨x, _ | ⟨y, _ | ⟨z, t⟩⟩⟩ <;>
      rw [hres] at h2
    · simp at h2
    · simp at h2
    · simp at h2
    · simp only [is_valid_range, hres]
  · intro v l r hsplit hwild
    cases hv : is_valid_range v start stop
    · rfl
    · exfalso
      obtain ⟨a, b, hl, hr, _⟩ := (main v l r hsplit).mp hv
      rcases hwild with hw | hw
      · have hls : l = ['*'] := by simpa [is_wildcard] using hw
        rw [hls] at hl
        have : safe_parse_int ['*'] = none := by decide
        rw [this] at hl
        cases hl
      · have hrs : r = ['*'] := by simpa [is_wildcard] using hw
        rw [hrs] at hr
        have : safe_parse_int ['*'] = none := by decide
        rw [this] at hr
        cases hr

/-- Witness for C5 at the concrete range `1-5` within bounds 0–59. -/
theorem claim5_hyphen_range_witness :
    is_valid_range ("1-5".data) 0 59 = true :=
  ((claim5_hyphen_range 0 59).1 ("1-5".data) (['1']) (['5']) (by decide)).mpr
    ⟨1, 5, by decide, by decide, by decide, by decide, by decide, by decide, by decide⟩

/-- C8: with `allowBlankDay` enabled, an expression whose day-of-month and
day-of-week fields are both exactly `?` is rejected (in both the
five-field and the six-field shape), while `* * ? * ?` is concretely
rejected and `* * ? * *` is concretely accepted under that flag. -/
theorem claim8_blank_day :
    (∀ cron (opts : Options) mi h mo, opts.allowBlankDay = true →
       split_cron cron = [mi, h, ['?'], mo, ['?']] → is_valid_cron cron opts = false) ∧
    (∀ cron (opts : Options) sec mi h mo, opts.allowBlankDay = true →
       split_cron cron = [sec, mi, h, ['?'], mo, ['?']] → is_valid_cron cron opts = false) ∧
    is_valid_cron ("* * ? * ?".data) ⟨false, false, true, false, false⟩ = false ∧
    is_valid_cron ("* * ? * *".data) ⟨false, false, true, false, false⟩ = true := by
  refine ⟨?_, ?_, by decide, by decide⟩
  · intro cron opts mi h mo hb hs
    simp only [is_valid_cron, hs, List.length_cons, List.length_nil]
    cases hsec : opts.seconds <;>
      simp [has_compatible_day_format, is_question_mark, hb]
  · intro cron opts sec mi h mo hb hs
    simp only [is_valid_cron, hs, List.length_cons, List.length_nil]
    cases hsec : opts.seconds <;>
      simp [has_compatible_day_format, is_question_mark, hb]

/-- Witness for C8's general rule at a five-field expression with both day
fields blank. -/
theorem claim8_blank_day_witness :
    is_valid_cron ("30 12 ? 6 ?".data) ⟨false, false, true, false, false⟩ = false :=
  claim8_blank_day.1 ("30 12 ? 6 ?".data) ⟨false, false, true, false, false⟩
    ("30".data) ("12".data) ("6".data) rfl (by decide)

/-- C7: with `allowNthWeekdayOfMonth` enabled and a `#` present in the
alias-resolved day-of-week field, more than one `#` is rejected, and
otherwise the field is valid exactly when the part left of `#` parses to a
number within the weekday bound and the part right of `#` parses to a
number in `[1, 5]`; the range/step grammar is bypassed, so the compound
form `mon-fri#2` is rejected. -/
theorem claim7_nth_weekday (w : List Char) (opts : Options)
    (hnth : opts.allowNthWeekdayOfMonth = true)
    (hhash : 2 ≤ (splitOnChar '#' (resolve_weekdays w opts.alias)).length) :
    (2 < (splitOnChar '#' (resolve_weekdays w opts.alias)).length →
       has_valid_weekdays w opts = false) ∧
    (∀ wd occ, splitOnChar '#' (resolve_weekdays w opts.alias) = [wd, occ] →
       (has_valid_weekdays w opts = true ↔
         is_in_range (safe_parse_int wd) 0 (if opts.allowSevenAsSunday then 7 else 6) = true ∧
         is_in_range (safe_parse_int occ) 1 5 = true)) ∧
    is_valid_cron ("* * * * mon-fri#2".data) ⟨true, false, false, false, true⟩ = false := by
  have hq : is_question_mark w = false := by
    cases hqm : is_question_mark w
    · rfl
    · exfalso
      have hwq : w = ['?'] := by simpa [is_question_mark] using hqm
      subst hwq
      have hres : resolve_weekdays ['?'] opts.alias = ['?'] := by
        unfold resolve_weekdays
        split
        · decide
        · rfl
      rw [hres] at hhash
      exact absurd hhash (by decide)
  by_cases hsl : hasSlashAlpha w = true
  · have hvw : has_valid_weekdays w opts = false := by
      simp [has_valid_weekdays, hq, hsl]
    refine ⟨fun _ => hvw, fun wd occ hsplit => ?_, by decide⟩
    rw [hvw]
    constructor
    · intro hfalse; cases hfalse
    · rintro ⟨hwd, hocc⟩
      exfalso
      have hslash : '/' ∈ resolve_weekdays w opts.alias := by
        have h1 : '/' ∈ w := mem_of_hasSlashAlpha hsl
        unfold resolve_weekdays
        split
        · exact mem_subAlias3 _ (by decide) _ (List.mem_map.mpr ⟨'/', h1, by decide⟩)
        · exact h1
      simp only [splitOnChar] at hsplit
      obtain ⟨part, hpmem, hpin⟩ :=
        mem_splitOnPred (fun c => decide (c = '#')) hslash (by decide)
      rw [hsplit] at hpmem
      have hnone : safe_parse_int part = none :=
        safe_parse_int_eq_none hpin (by decide) (by decide)
      rcases List.mem_cons.mp hpmem with h1 | h1
      · rw [← h1, hnone] at hwd
        simp [is_in_range] at hwd
      · rcases List.mem_cons.mp h1 with h2 | h2
        · rw [← h2, hnone] at hocc
          simp [is_in_range] at hocc
        · cases h2
  · have hsl' : hasSlashAlpha w = false := by
      revert hsl; cases hasSlashAlpha w <;> simp
    refine ⟨?_, ?_, by decide⟩
    · intro h3
      rcases hres : splitOnChar '#' (resolve_weekdays w opts.alias) with
        _ | ⟨x, _ | ⟨y, _ | ⟨z, t⟩⟩⟩ <;> rw [hres] at h3
      · simp at h3
      · simp at h3
      · simp at h3
      · simp only [has_valid_weekdays, hq, Bool.and_false, Bool.false_eq_true, if_false,
          hsl', hnth, Bool.true_and, hres, List.length_cons]
        simp
    · intro wd occ hsplit
      simp only [has_valid_weekdays, hq, Bool.and_false, Bool.false_eq_true, if_false,
        hsl', hnth, Bool.true_and, hsplit, List.length_cons, List.length_nil]
      show (is_in_range (safe_parse_int occ) 1 5 &&
          is_in_range (safe_parse_int wd) 0 (if opts.allowSevenAsSunday then 7 else 6))
          = true ↔ _
      rw [Bool.and_eq_true]
      exact and_comm

/-- Witness for C7 at the hash field `1#2` with the flag enabled. -/
theorem claim7_nth_weekday_witness :
    has_valid_weekdays ("1#2".data) ⟨false, false, false, false, true⟩ = true :=
  ((claim7_nth_weekday ("1#2".data) ⟨false, false, false, false, true⟩ rfl
      (by decide)).2.1 (['1']) (['2']) (by decide)).mpr ⟨by decide, by decide⟩

end CronValidator
